import Mathlib

/-!
Shallow embedding of the study-scheduler repository (files
`data_handler.py` and `optimizer.py`) and verification of the frozen
claims about it.

Modelling conventions:
* A Python `datetime` is a rational number of days since an arbitrary
  epoch; `x.date()` is `⌊x⌋` and `(a - b).days` (whole days of a
  `timedelta`, which Python floors) is `⌊a - b⌋`.
* Python floats are modelled as rationals; `round(x, 1)` is modelled as
  round-half-to-even on tenths, matching the documented behaviour of
  Python `round` on exactly representable values.
* `datetime.now()` is passed in explicitly as the parameter `now`
  (one value per scheduling run).
* Mutation of `self` and of the working-copy dicts is modelled by
  explicit state passing: `simple_schedule` returns the result together
  with the post-call data handler, and the per-run working list is
  threaded through the day loop.
* The `try/except` in `calculate_urgency_score` is modelled by an
  `Option` argument: `none` stands for a due date on which the date
  arithmetic raises.
* Each working record carries the position `idx` it had in the pending
  list; this models Python object identity of the working-copy dicts.
-/

namespace StudyScheduler

/-- `Course` from `data_handler.py` (the source misspells the
difficulty attribute as `difficutly`; the name is kept). -/
structure Course where
  name : String
  credits : Int
  difficutly : Int
  weekly_hours : Int
deriving DecidableEq

/-- `Assignment` from `data_handler.py`; `due_date` is a datetime
(rational days since epoch). -/
structure Assignment where
  course : String
  name : String
  due_date : ℚ
  estimated_hours : ℚ
  priority : Int
  completed : Bool
deriving DecidableEq

/-- `DataHandler` state: the `courses` and `assignments` lists. -/
structure DataHandler where
  courses : List Course
  assignments : List Assignment
deriving DecidableEq

/-- `DataHandler.add_course`: append iff no stored course has the same
name; returns the Python return value and the post-call handler. -/
def add_course (h : DataHandler) (c : Course) : Bool × DataHandler :=
  if c.name ∈ h.courses.map Course.name then (false, h)
  else (true, { h with courses := h.courses ++ [c] })

/-- `DataHandler.add_assignment`: unconditional append. -/
def add_assignment (h : DataHandler) (a : Assignment) : Bool × DataHandler :=
  (true, { h with assignments := h.assignments ++ [a] })

/-- `DataHandler.get_pending_assignments`: the assignments whose
`completed` flag is false. -/
def get_pending_assignments (h : DataHandler) : List Assignment :=
  h.assignments.filter (fun a => !a.completed)

/-- `(due_date - datetime.now()).days`: whole days, floored. -/
def days_until_due (due now : ℚ) : Int := ⌊due - now⌋

/-- The branch structure of `calculate_urgency_score` once
`days_until_due` has been computed (`optimizer.py` lines 16 to 27). -/
def urgency_core (d : Int) (priority : Int) : ℚ :=
  if d < 0 then 100
  else if d = 0 then 90
  else if d ≤ 1 then 80
  else min 100 (max 0 (15 - (d : ℚ)) + (priority : ℚ) * 10)

/-- `StudyOptimizer.calculate_urgency_score`. A `none` due date stands
for input on which the date arithmetic raises; the `except` branch then
returns `priority * 10`. -/
def calculate_urgency_score (due : Option ℚ) (now : ℚ) (priority : Int) : ℚ :=
  match due with
  | some dd => urgency_core (days_until_due dd now) priority
  | none => (priority : ℚ) * 10

/-- A working-copy record (`optimizer.py` lines 47 to 53): the
assignment together with the mutable `remaining_hours` and the frozen
urgency score. `idx` is the position in the pending list and models
Python object identity of the dict. -/
structure WorkRec where
  idx : Nat
  assignment : Assignment
  remaining_hours : ℚ
  urgency : ℚ
deriving DecidableEq

/-- Builds the working list from the pending assignments, numbering the
records from `k` (`simple_schedule` starts at 0). -/
def mkWorking (now : ℚ) : Nat → List Assignment → List WorkRec
  | _, [] => []
  | k, a :: rest =>
    { idx := k, assignment := a, remaining_hours := a.estimated_hours,
      urgency := calculate_urgency_score (some a.due_date) now a.priority }
      :: mkWorking now (k + 1) rest

/-- Insertion step of a stable descending sort on `urgency`: the new
record goes in front of the first record whose urgency is not larger.
Inserting earlier-input records into the sorted list of later-input
records reproduces the stable `list.sort(key=urgency, reverse=True)`. -/
def insertByUrgency (x : WorkRec) : List WorkRec → List WorkRec
  | [] => [x]
  | y :: ys => if y.urgency ≤ x.urgency then x :: y :: ys else y :: insertByUrgency x ys

/-- Stable sort by urgency descending (`optimizer.py` line 56). -/
def sortByUrgency : List WorkRec → List WorkRec
  | [] => []
  | x :: xs => insertByUrgency x (sortByUrgency xs)

/-- One session dict of a daily schedule. `hours` is the emitted
rounded value; `hoursRaw` is the unrounded `hours_to_allocate` that the
code subtracts from the remaining budgets. `due_date` is the calendar
day behind the formatted date string. -/
structure Session where
  idx : Nat
  assignment : String
  course : String
  hours : ℚ
  hoursRaw : ℚ
  urgency : ℚ
  due_date : Int
deriving DecidableEq

/-- One `daily_schedule` dict. -/
structure DaySchedule where
  date : Int
  sessions : List Session
deriving DecidableEq

/-- The dict returned by `simple_schedule`. -/
structure ScheduleResult where
  status : String
  schedule : List DaySchedule
  message : String
  total_study_hours : ℚ
deriving DecidableEq

/-- Python `round` to the nearest integer, half to even. -/
def pyRound (q : ℚ) : Int :=
  if Int.fract q < 1 / 2 then ⌊q⌋
  else if 1 / 2 < Int.fract q then ⌊q⌋ + 1
  else if 2 ∣ ⌊q⌋ then ⌊q⌋ else ⌊q⌋ + 1

/-- Python `round(q, 1)`. -/
def round1 (q : ℚ) : ℚ := (pyRound (q * 10) : ℚ) / 10

/-- `hours_to_allocate = min(remaining_hours, remaining_daily_hours,
4.0)` (`optimizer.py` lines 86 to 90). -/
def allocAmount (rdh : ℚ) (w : WorkRec) : ℚ :=
  min w.remaining_hours (min rdh 4)

/-- The session dict appended for a work item (`optimizer.py` lines 93
to 99). -/
def emitSession (w : WorkRec) (alloc : ℚ) : Session :=
  { idx := w.idx, assignment := w.assignment.name, course := w.assignment.course,
    hours := round1 alloc, hoursRaw := alloc, urgency := w.urgency,
    due_date := ⌊w.assignment.due_date⌋ }

/-- The inner per-day loop over the working records (`optimizer.py`
lines 71 to 103): returns the sessions of the day and the updated
working list. `rdh` is `remaining_daily_hours`. -/
def processDay (day : Int) : ℚ → List WorkRec → List Session × List WorkRec
  | _, [] => ([], [])
  | rdh, w :: ws =>
    if rdh ≤ 1 / 2 then ([], w :: ws)
    else if ⌊w.assignment.due_date⌋ < day then
      ((processDay day rdh ws).1, w :: (processDay day rdh ws).2)
    else if w.remaining_hours ≤ 0 then
      ((processDay day rdh ws).1, w :: (processDay day rdh ws).2)
    else if 1 / 2 < allocAmount rdh w then
      (emitSession w (allocAmount rdh w) :: (processDay day (rdh - allocAmount rdh w) ws).1,
       { w with remaining_hours := w.remaining_hours - allocAmount rdh w }
         :: (processDay day (rdh - allocAmount rdh w) ws).2)
    else
      ((processDay day rdh ws).1, w :: (processDay day rdh ws).2)

/-- The outer loop over `day_offset in range(days_ahead)`
(`optimizer.py` lines 61 to 107); days without sessions are omitted. -/
def runDays (avail : ℚ) (current_date : Int) : Nat → Nat → List WorkRec → List DaySchedule × List WorkRec
  | _, 0, ws => ([], ws)
  | off, n + 1, ws =>
    (if (processDay (current_date + (off : Int)) avail ws).1.isEmpty then
        (runDays avail current_date (off + 1) n (processDay (current_date + (off : Int)) avail ws).2).1
      else
        { date := current_date + (off : Int),
          sessions := (processDay (current_date + (off : Int)) avail ws).1 }
          :: (runDays avail current_date (off + 1) n (processDay (current_date + (off : Int)) avail ws).2).1,
     (runDays avail current_date (off + 1) n (processDay (current_date + (off : Int)) avail ws).2).2)

/-- `total_study_hours`: the sum of the emitted rounded session hours
(`optimizer.py` lines 109 to 112). -/
def totalHours (days : List DaySchedule) : ℚ :=
  (days.map (fun d => (d.sessions.map Session.hours).sum)).sum

/-- The whole scheduling loop on a nonempty pending list: builds the
working copies, sorts them, runs the day loop from `⌊now⌋`. -/
def runSchedule (now avail : ℚ) (days_ahead : Nat) (pending : List Assignment) :
    List DaySchedule × List WorkRec :=
  runDays avail ⌊now⌋ 0 days_ahead (sortByUrgency (mkWorking now 0 pending))

/-- `StudyOptimizer.simple_schedule`. `avail` is
`self.available_hours_per_day` (8 unless reconfigured); the returned
`DataHandler` is the post-call state of `self.data_handler`. -/
def simple_schedule (handler : DataHandler) (now : ℚ) (avail : ℚ := 8)
    (days_ahead : Nat := 14) : ScheduleResult × DataHandler :=
  if (get_pending_assignments handler).isEmpty then
    ({ status := "No assignments", schedule := [],
       message := "No pending assignments to schedule!", total_study_hours := 0 },
     handler)
  else
    ({ status := "Success",
       schedule := (runSchedule now avail days_ahead (get_pending_assignments handler)).1,
       message := "Schedule generated successfully!",
       total_study_hours :=
         totalHours (runSchedule now avail days_ahead (get_pending_assignments handler)).1 },
     handler)

/-- Python `int()` truncation toward zero on a rational. -/
def pyTrunc (q : ℚ) : Int := if 0 ≤ q then ⌊q⌋ else -⌊-q⌋

/-- One time block of `create_time_blocks`; the start minute is the
literal `:00` of the format string. -/
structure TimeBlock where
  assignment : String
  course : String
  start_hour : Int
  start_minute : Int
  end_hour : Int
  end_minute : Int
  duration_hours : ℚ
  urgency : ℚ
  due_date : Int
deriving DecidableEq

/-- The loop of `create_time_blocks` (`optimizer.py` lines 126 to 151),
parameterised by the running `current_hour`. The two final statements
of the loop body are kept as in the source (the second `if` is the
redundant reassignment on lines 149 to 150). -/
def timeBlocksFrom : Int → List Session → List TimeBlock
  | _, [] => []
  | current_hour, s :: rest =>
    { assignment := s.assignment, course := s.course,
      start_hour := current_hour, start_minute := 0,
      end_hour := current_hour + pyTrunc s.hours,
      end_minute := pyTrunc (Int.fract s.hours * 60),
      duration_hours := s.hours, urgency := s.urgency, due_date := s.due_date }
      :: timeBlocksFrom
          (if 0 < pyTrunc (Int.fract s.hours * 60) ∧ pyTrunc (Int.fract s.hours * 60) ≤ 45 then
            current_hour + pyTrunc s.hours
          else
            current_hour + pyTrunc s.hours +
              (if 45 < pyTrunc (Int.fract s.hours * 60) then 1 else 0))
          rest

/-- `StudyOptimizer.create_time_blocks`: starts at 9 AM. -/
def create_time_blocks (daily_sessions : List Session) : List TimeBlock :=
  timeBlocksFrom 9 daily_sessions

/-- The unrounded hours the record with input position `i` receives in
a session list. -/
def rawSumIdx (i : Nat) : List Session → ℚ
  | [] => 0
  | s :: l => (if s.idx = i then s.hoursRaw else 0) + rawSumIdx i l

/-- The unrounded hours the record with input position `i` receives
across a whole schedule. -/
def schedRawSumIdx (i : Nat) : List DaySchedule → ℚ
  | [] => 0
  | d :: ds => rawSumIdx i d.sessions + schedRawSumIdx i ds

/-- The total `remaining_hours` held by the working records with input
position `i`. -/
def remSumIdx (i : Nat) : List WorkRec → ℚ
  | [] => 0
  | r :: l => (if r.idx = i then r.remaining_hours else 0) + remSumIdx i l

/-- How one pass of the day loop may change a working record: the
assignment reference, the frozen urgency and the identity are
untouched; only `remaining_hours` may decrease, and it stays
nonnegative if it was nonnegative. -/
def RecStep (r rr : WorkRec) : Prop :=
  rr.idx = r.idx ∧ rr.assignment = r.assignment ∧ rr.urgency = r.urgency ∧
    rr.remaining_hours ≤ r.remaining_hours ∧
    (0 ≤ r.remaining_hours → 0 ≤ rr.remaining_hours)

/-- The order in which the sorted working list is consumed: urgency
strictly descending, and ties resolved by input position (`idx`), which
is the stable tie-break of the Python sort. -/
def urgOrd (r1 r2 : WorkRec) : Prop :=
  r2.urgency ≤ r1.urgency ∧ (r1.urgency = r2.urgency → r1.idx < r2.idx)

/-- Example assignment: due half a day from the epoch, two estimated
hours, priority 3, pending. -/
def exAssignment : Assignment :=
  { course := "CS", name := "HW1", due_date := 1 / 2, estimated_hours := 2,
    priority := 3, completed := false }

/-- Example course. -/
def exCourse : Course :=
  { name := "CS", credits := 4, difficutly := 8, weekly_hours := 10 }

/-- Example data handler holding one course and one pending assignment. -/
def exHandler : DataHandler :=
  { courses := [exCourse], assignments := [exAssignment] }

/-- The single working record of the example run before the day loop. -/
def exWork : WorkRec :=
  { idx := 0, assignment := exAssignment, remaining_hours := 2, urgency := 90 }

/-- The single session `simple_schedule exHandler (1/4) 8 1` emits. -/
def exSession : Session :=
  { idx := 0, assignment := "HW1", course := "CS", hours := 2, hoursRaw := 2,
    urgency := 90, due_date := 0 }

/-- The single day `simple_schedule exHandler (1/4) 8 1` emits: the
assignment is due on day 0 and is scheduled on day 0. -/
def exDay : DaySchedule :=
  { date := 0, sessions := [exSession] }

/-- First session for the time-block examples: one and a half hours. -/
def cSessA : Session :=
  { idx := 0, assignment := "A", course := "C1", hours := 3 / 2, hoursRaw := 3 / 2,
    urgency := 90, due_date := 0 }

/-- Second session for the time-block examples: one hour. -/
def cSessB : Session :=
  { idx := 1, assignment := "B", course := "C1", hours := 1, hoursRaw := 1,
    urgency := 80, due_date := 0 }

/-- The blocks produced for the two example sessions. -/
def cBlocks : List TimeBlock := create_time_blocks [cSessA, cSessB]

/-- The first block of `cBlocks`: 09:00 to 10:30. -/
def cBlock1 : TimeBlock :=
  { assignment := "A", course := "C1", start_hour := 9, start_minute := 0,
    end_hour := 10, end_minute := 30, duration_hours := 3 / 2, urgency := 90,
    due_date := 0 }

/-- The second block of `cBlocks`: it starts at 10:00, not at the 10:30
end of the first block, although the end minute 30 does not exceed 45. -/
def cBlock2 : TimeBlock :=
  { assignment := "B", course := "C1", start_hour := 10, start_minute := 0,
    end_hour := 11, end_minute := 0, duration_hours := 1, urgency := 80,
    due_date := 0 }

theorem recStep_refl (r : WorkRec) : RecStep r r :=
  ⟨rfl, rfl, rfl, le_refl _, fun h => h⟩

theorem recStep_trans {a b c : WorkRec} (h1 : RecStep a b) (h2 : RecStep b c) : RecStep a c :=
  ⟨h2.1.trans h1.1, h2.2.1.trans h1.2.1, h2.2.2.1.trans h1.2.2.1,
    h2.2.2.2.1.trans h1.2.2.2.1, fun h => h2.2.2.2.2 (h1.2.2.2.2 h)⟩

theorem forall2_recStep_refl (l : List WorkRec) : List.Forall₂ RecStep l l :=
  List.forall₂_same.mpr (fun r _ => recStep_refl r)

theorem forall2_recStep_trans {l1 l2 l3 : List WorkRec}
    (h12 : List.Forall₂ RecStep l1 l2) (h23 : List.Forall₂ RecStep l2 l3) :
    List.Forall₂ RecStep l1 l3 := by
  induction h12 generalizing l3 with
  | nil => cases h23; exact .nil
  | cons h _ ih =>
    cases h23 with
    | cons h2 t2 => exact .cons (recStep_trans h h2) (ih t2)

theorem forall2_recStep_map_idx {l1 l2 : List WorkRec}
    (h : List.Forall₂ RecStep l1 l2) : l2.map WorkRec.idx = l1.map WorkRec.idx := by
  induction h with
  | nil => rfl
  | cons hr _ ih => simp [ih, hr.1]

theorem forall2_recStep_remSum_nonneg {i : Nat} {l1 l2 : List WorkRec}
    (h : List.Forall₂ RecStep l1 l2)
    (h0 : ∀ r ∈ l1, r.idx = i → 0 ≤ r.remaining_hours) : 0 ≤ remSumIdx i l2 := by
  induction h with
  | nil => simp [remSumIdx]
  | cons hr ht ih =>
    rename_i a b l1t l2t
    simp only [remSumIdx]
    have hrest : 0 ≤ remSumIdx i l2t := ih (fun r hm hi => h0 r (List.mem_cons_of_mem _ hm) hi)
    by_cases hb : b.idx = i
    · have ha : a.idx = i := hr.1 ▸ hb
      have := hr.2.2.2.2 (h0 a (List.mem_cons_self _ _) ha)
      simp only [hb, if_pos]
      linarith
    · simp only [hb, if_neg, not_false_iff]
      linarith

theorem allocAmount_le_rem (rdh : ℚ) (w : WorkRec) : allocAmount rdh w ≤ w.remaining_hours :=
  min_le_left _ _

theorem allocAmount_le_rdh (rdh : ℚ) (w : WorkRec) : allocAmount rdh w ≤ rdh :=
  le_trans (min_le_right _ _) (min_le_left _ _)

theorem allocAmount_le_four (rdh : ℚ) (w : WorkRec) : allocAmount rdh w ≤ 4 :=
  le_trans (min_le_right _ _) (min_le_right _ _)

theorem processDay_forall2 (day : Int) (rdh : ℚ) (ws : List WorkRec) :
    List.Forall₂ RecStep ws (processDay day rdh ws).2 := by
  induction ws generalizing rdh with
  | nil => simp [processDay]
  | cons w ws ih =>
    simp only [processDay]
    split_ifs with h1 h2 h3 h4
    · exact .cons (recStep_refl w) (forall2_recStep_refl ws)
    · exact .cons (recStep_refl w) (ih rdh)
    · exact .cons (recStep_refl w) (ih rdh)
    · refine .cons ⟨rfl, rfl, rfl, ?_, ?_⟩ (ih _)
      · exact sub_le_self _ (le_of_lt (lt_trans (by norm_num) h4))
      · intro _
        have := allocAmount_le_rem rdh w
        show 0 ≤ w.remaining_hours - allocAmount rdh w
        linarith
    · exact .cons (recStep_refl w) (ih rdh)

theorem processDay_remSum (day : Int) (i : Nat) (rdh : ℚ) (ws : List WorkRec) :
    remSumIdx i ws =
      rawSumIdx i (processDay day rdh ws).1 + remSumIdx i (processDay day rdh ws).2 := by
  induction ws generalizing rdh with
  | nil => simp [processDay, rawSumIdx, remSumIdx]
  | cons w ws ih =>
    simp only [processDay]
    split_ifs with h1 h2 h3 h4
    · simp [rawSumIdx]
    · simp only [remSumIdx, rawSumIdx, ih rdh]; ring
    · simp only [remSumIdx, rawSumIdx, ih rdh]; ring
    · by_cases hw : w.idx = i
      · simp only [remSumIdx, rawSumIdx, emitSession, hw, if_pos, ih (rdh - allocAmount rdh w)]
        ring
      · simp only [remSumIdx, rawSumIdx, emitSession, hw, if_neg, not_false_iff,
          ih (rdh - allocAmount rdh w)]
        ring
    · simp only [remSumIdx, rawSumIdx, ih rdh]; ring

theorem processDay_raw_le (day : Int) (rdh : ℚ) (ws : List WorkRec) (h0 : 0 ≤ rdh) :
    ((processDay day rdh ws).1.map Session.hoursRaw).sum ≤ rdh := by
  induction ws generalizing rdh with
  | nil => simpa [processDay] using h0
  | cons w ws ih =>
    simp only [processDay]
    split_ifs with h1 h2 h3 h4
    · simpa using h0
    · exact ih rdh h0
    · exact ih rdh h0
    · have hle := allocAmount_le_rdh rdh w
      have := ih (rdh - allocAmount rdh w) (by linarith)
      simp only [List.map_cons, List.sum_cons, emitSession]
      linarith
    · exact ih rdh h0

theorem processDay_session_props (day : Int) (rdh : ℚ) (ws : List WorkRec) :
    ∀ s ∈ (processDay day rdh ws).1,
      day ≤ s.due_date ∧ 1 / 2 < s.hoursRaw ∧ s.hoursRaw ≤ 4 ∧ s.hours = round1 s.hoursRaw := by
  induction ws generalizing rdh with
  | nil => simp [processDay]
  | cons w ws ih =>
    simp only [processDay]
    split_ifs with h1 h2 h3 h4
    · simp
    · exact ih rdh
    · exact ih rdh
    · intro s hs
      rcases List.mem_cons.mp hs with hs | hs
      · subst hs
        refine ⟨le_of_not_lt h2, h4, allocAmount_le_four rdh w, rfl⟩
      · exact ih _ s hs
    · exact ih rdh

theorem processDay_idx_sublist (day : Int) (rdh : ℚ) (ws : List WorkRec) :
    ((processDay day rdh ws).1.map Session.idx).Sublist (ws.map WorkRec.idx) := by
  induction ws generalizing rdh with
  | nil => simp [processDay]
  | cons w ws ih =>
    simp only [processDay]
    split_ifs with h1 h2 h3 h4
    · simp
    · exact (ih rdh).cons _
    · exact (ih rdh).cons _
    · simpa [emitSession] using (ih (rdh - allocAmount rdh w)).cons₂ w.idx
    · exact (ih rdh).cons _

theorem runDays_forall2 (avail : ℚ) (cd : Int) (off n : Nat) (ws : List WorkRec) :
    List.Forall₂ RecStep ws (runDays avail cd off n ws).2 := by
  induction n generalizing off ws with
  | zero => exact forall2_recStep_refl ws
  | succ n ih =>
    exact forall2_recStep_trans (processDay_forall2 (cd + (off : Int)) avail ws) (ih (off + 1) _)

theorem runDays_remSum (avail : ℚ) (cd : Int) (i : Nat) (off n : Nat) (ws : List WorkRec) :
    remSumIdx i ws =
      schedRawSumIdx i (runDays avail cd off n ws).1 +
        remSumIdx i (runDays avail cd off n ws).2 := by
  induction n generalizing off ws with
  | zero => simp [runDays, schedRawSumIdx]
  | succ n ih =>
    have hpd := processDay_remSum (cd + (off : Int)) i avail ws
    have hih := ih (off + 1) (processDay (cd + (off : Int)) avail ws).2
    by_cases hemp : (processDay (cd + (off : Int)) avail ws).1.isEmpty = true
    · have hnil : (processDay (cd + (off : Int)) avail ws).1 = [] := by
        simpa [List.isEmpty_iff] using hemp
      simp only [runDays, hemp, if_true]
      rw [hpd, hnil]
      simp only [rawSumIdx]
      linarith
    · simp only [runDays, hemp, if_false]
      simp only [schedRawSumIdx]
      rw [hpd, hih]
      ring

theorem runDays_mem (avail : ℚ) (cd : Int) (off n : Nat) (ws : List WorkRec) :
    ∀ d ∈ (runDays avail cd off n ws).1,
      ∃ ws1, List.Forall₂ RecStep ws ws1 ∧ d.sessions = (processDay d.date avail ws1).1 := by
  induction n generalizing off ws with
  | zero => simp [runDays]
  | succ n ih =>
    intro d hd
    simp only [runDays] at hd
    by_cases hemp : (processDay (cd + (off : Int)) avail ws).1.isEmpty = true
    · rw [if_pos hemp] at hd
      obtain ⟨ws1, h1, h2⟩ := ih (off + 1) _ d hd
      exact ⟨ws1, forall2_recStep_trans (processDay_forall2 _ avail ws) h1, h2⟩
    · rw [if_neg hemp] at hd
      rcases List.mem_cons.mp hd with rfl | hd
      · exact ⟨ws, forall2_recStep_refl ws, rfl⟩
      · obtain ⟨ws1, h1, h2⟩ := ih (off + 1) _ d hd
        exact ⟨ws1, forall2_recStep_trans (processDay_forall2 _ avail ws) h1, h2⟩

theorem mkWorking_map_idx (now : ℚ) : ∀ (k : Nat) (l : List Assignment),
    (mkWorking now k l).map WorkRec.idx = List.range' k l.length
  | _, [] => rfl
  | k, _ :: rest => by
    simp [mkWorking, List.range', mkWorking_map_idx now (k + 1) rest]

theorem mkWorking_pairwise_idx (now : ℚ) (k : Nat) (l : List Assignment) :
    (mkWorking now k l).Pairwise (fun a b => a.idx < b.idx) := by
  have h := List.pairwise_lt_range' k l.length
  rw [← mkWorking_map_idx now k l] at h
  exact List.pairwise_map.mp h

theorem mkWorking_mem (now : ℚ) : ∀ (k : Nat) (l : List Assignment) (r : WorkRec),
    r ∈ mkWorking now k l →
      ∃ j, r.idx = k + j ∧ l.get? j = some r.assignment ∧
        r.remaining_hours = r.assignment.estimated_hours
  | _, [], r => by simp [mkWorking]
  | k, a :: rest, r => by
    intro hr
    rcases List.mem_cons.mp hr with rfl | hr
    · exact ⟨0, by simp, by simp, rfl⟩
    · obtain ⟨j, h1, h2, h3⟩ := mkWorking_mem now (k + 1) rest r hr
      exact ⟨j + 1, by omega, by simpa using h2, h3⟩

theorem remSumIdx_eq_zero {i : Nat} : ∀ {l : List WorkRec},
    (∀ r ∈ l, r.idx ≠ i) → remSumIdx i l = 0
  | [], _ => rfl
  | r :: l, h => by
    simp only [remSumIdx]
    rw [if_neg (h r (List.mem_cons_self _ _)),
      remSumIdx_eq_zero (fun t ht => h t (List.mem_cons_of_mem _ ht))]
    ring

theorem mkWorking_remSum (now : ℚ) : ∀ (l : List Assignment) (k j : Nat) (a : Assignment),
    l.get? j = some a → remSumIdx (k + j) (mkWorking now k l) = a.estimated_hours
  | [], _, j, _ => by simp
  | b :: rest, k, 0, a => by
    intro h
    simp only [List.get?] at h
    injection h with h
    subst h
    simp only [mkWorking, remSumIdx]
    have hz : remSumIdx (k + 0) (mkWorking now (k + 1) rest) = 0 := by
      refine remSumIdx_eq_zero (fun r hr => ?_)
      obtain ⟨j, hj, -, -⟩ := mkWorking_mem now (k + 1) rest r hr
      omega
    rw [if_pos (by omega), hz]
    ring
  | b :: rest, k, j + 1, a => by
    intro h
    simp only [List.get?] at h
    have hrec := mkWorking_remSum now rest (k + 1) j a h
    simp only [mkWorking, remSumIdx]
    rw [if_neg (by omega), show k + (j + 1) = (k + 1) + j by omega, hrec]
    ring

theorem insertByUrgency_perm (x : WorkRec) : ∀ l : List WorkRec,
    (insertByUrgency x l).Perm (x :: l)
  | [] => List.Perm.refl _
  | y :: ys => by
    simp only [insertByUrgency]
    split_ifs with h
    · exact List.Perm.refl _
    · exact ((insertByUrgency_perm x ys).cons y).trans (List.Perm.swap x y ys)

theorem sortByUrgency_perm : ∀ l : List WorkRec, (sortByUrgency l).Perm l
  | [] => List.Perm.refl _
  | x :: xs =>
    (insertByUrgency_perm x (sortByUrgency xs)).trans ((sortByUrgency_perm xs).cons x)

theorem remSumIdx_perm {i : Nat} {l1 l2 : List WorkRec} (h : l1.Perm l2) :
    remSumIdx i l1 = remSumIdx i l2 := by
  induction h with
  | nil => rfl
  | cons x _ ih => simp [remSumIdx, ih]
  | swap x y l => simp only [remSumIdx]; ring
  | trans _ _ ih1 ih2 => exact ih1.trans ih2

theorem insertByUrgency_mem {x y : WorkRec} {l : List WorkRec}
    (h : y ∈ insertByUrgency x l) : y = x ∨ y ∈ l := by
  simpa using (insertByUrgency_perm x l).mem_iff.mp h

theorem insertByUrgency_pairwise {x : WorkRec} : ∀ {l : List WorkRec},
    l.Pairwise urgOrd → (∀ y ∈ l, x.idx < y.idx) →
    (insertByUrgency x l).Pairwise urgOrd := by
  intro l
  induction l with
  | nil =>
    intro _ _
    simp [insertByUrgency]
  | cons y ys ih =>
    intro hp hx
    have hp' := List.pairwise_cons.mp hp
    simp only [insertByUrgency]
    split_ifs with h
    · refine List.Pairwise.cons ?_ hp
      intro z hz
      rcases List.mem_cons.mp hz with heq | hz
      · rw [heq]
        exact ⟨h, fun _ => hx y (List.mem_cons_self _ _)⟩
      · exact ⟨le_trans (hp'.1 z hz).1 h, fun _ => hx z (List.mem_cons_of_mem _ hz)⟩
    · refine List.Pairwise.cons ?_ (ih hp'.2 (fun z hz => hx z (List.mem_cons_of_mem _ hz)))
      intro z hz
      rcases insertByUrgency_mem hz with heq | hz
      · rw [heq]
        have hlt : x.urgency < y.urgency := lt_of_not_le h
        exact ⟨le_of_lt hlt, fun heq2 => absurd heq2 (ne_of_gt hlt)⟩
      · exact hp'.1 z hz

theorem sortByUrgency_pairwise : ∀ {l : List WorkRec},
    l.Pairwise (fun a b => a.idx < b.idx) → (sortByUrgency l).Pairwise urgOrd
  | [], _ => by simp [sortByUrgency]
  | x :: xs, hp => by
    have hp' := List.pairwise_cons.mp hp
    exact insertByUrgency_pairwise (sortByUrgency_pairwise hp'.2)
      (fun y hy => hp'.1 y ((sortByUrgency_perm xs).mem_iff.mp hy))

theorem pyRound_le (q : ℚ) : (pyRound q : ℚ) ≤ q + 1 / 2 := by
  have hfl := Int.floor_le q
  have hfr : Int.fract q = q - (⌊q⌋ : ℚ) := rfl
  unfold pyRound
  split_ifs with h1 h2 h3 <;> push_cast <;> rw [hfr] at * <;> linarith

theorem round1_le (q : ℚ) : round1 q ≤ q + 1 / 20 := by
  have h := pyRound_le (q * 10)
  unfold round1
  linarith

theorem sum_hours_le_raw : ∀ l : List Session,
    (∀ s ∈ l, s.hours = round1 s.hoursRaw) →
    (l.map Session.hours).sum ≤ (l.map Session.hoursRaw).sum + (l.length : ℚ) * (1 / 20)
  | [], _ => by simp
  | s :: rest, h => by
    have h1 : s.hours = round1 s.hoursRaw := h s (List.mem_cons_self _ _)
    have h2 := sum_hours_le_raw rest (fun t ht => h t (List.mem_cons_of_mem _ ht))
    have h3 : round1 s.hoursRaw ≤ s.hoursRaw + 1 / 20 := round1_le _
    simp only [List.map_cons, List.sum_cons, List.length_cons]
    push_cast
    rw [h1]
    linarith

theorem timeBlocksFrom_head : ∀ (h : Int) (l : List Session) (b : TimeBlock),
    (timeBlocksFrom h l).head? = some b → b.start_hour = h ∧ b.start_minute = 0
  | _, [], b => by simp [timeBlocksFrom]
  | h, s :: rest, b => by
    intro hb
    simp only [timeBlocksFrom, List.head?_cons, Option.some.injEq] at hb
    rw [← hb]
    exact ⟨rfl, rfl⟩

theorem timeBlocksFrom_chain : ∀ (h : Int) (l : List Session),
    List.Chain' (fun b1 b2 => b2.start_minute = 0 ∧
      b2.start_hour = b1.end_hour + (if 45 < b1.end_minute then 1 else 0))
      (timeBlocksFrom h l)
  | _, [] => List.chain'_nil
  | h, s :: rest => by
    simp only [timeBlocksFrom]
    rw [List.chain'_cons']
    constructor
    · intro b2 hb2
      obtain ⟨hsh, hsm⟩ := timeBlocksFrom_head _ rest b2 (Option.mem_def.mp hb2)
      refine ⟨hsm, ?_⟩
      rw [hsh]
      dsimp only
      split_ifs with hc hgt hgt <;> omega
    · exact timeBlocksFrom_chain _ rest

theorem timeBlocksFrom_forall2 : ∀ (h : Int) (l : List Session),
    List.Forall₂ (fun b s => b.duration_hours = s.hours ∧
      b.end_hour = b.start_hour + pyTrunc s.hours ∧
      b.end_minute = pyTrunc (Int.fract s.hours * 60))
      (timeBlocksFrom h l) l
  | _, [] => .nil
  | h, s :: rest => .cons ⟨rfl, rfl, rfl⟩ (timeBlocksFrom_forall2 _ rest)

theorem exPending_eq : get_pending_assignments exHandler = [exAssignment] := by
  simp [get_pending_assignments, exHandler, exAssignment]

theorem exWorking_eq :
    sortByUrgency (mkWorking (1 / 4) 0 [exAssignment]) = [exWork] := by
  simp only [mkWorking, sortByUrgency, insertByUrgency, exWork]
  norm_num [calculate_urgency_score, urgency_core, days_until_due, exAssignment]

theorem exProcess_eq :
    processDay 0 8 [exWork] = ([exSession], [{ exWork with remaining_hours := 0 }]) := by
  have halloc : allocAmount 8 exWork = 2 := by
    norm_num [allocAmount, exWork]
  have hr1 : round1 2 = 2 := by
    norm_num [round1, pyRound, Int.fract]
  simp only [processDay, halloc, emitSession]
  norm_num [exWork, exAssignment, exSession, hr1]

theorem exSchedule_eq : (simple_schedule exHandler (1 / 4) 8 1).1.schedule = [exDay] := by
  have hfloor : ⌊(1 : ℚ) / 4⌋ = (0 : Int) := by norm_num
  simp only [simple_schedule, runSchedule, exPending_eq, List.isEmpty_cons,
    Bool.false_eq_true, if_false, exWorking_eq, hfloor]
  have hday : (0 : Int) + ((0 : Nat) : Int) = 0 := by norm_num
  simp only [runDays, hday, exProcess_eq, List.isEmpty_cons, Bool.false_eq_true, if_false]
  simp [exDay]

theorem exDay_mem : exDay ∈ (simple_schedule exHandler (1 / 4) 8 1).1.schedule := by
  rw [exSchedule_eq]
  exact List.mem_singleton.mpr rfl

theorem cBlocks_eval : create_time_blocks [cSessA, cSessB] = [cBlock1, cBlock2] := by
  have h1 : pyTrunc ((3 : ℚ) / 2) = 1 := by norm_num [pyTrunc]
  have h2 : pyTrunc (Int.fract ((3 : ℚ) / 2) * 60) = 30 := by
    norm_num [pyTrunc, Int.fract]
  have h3 : pyTrunc ((1 : ℚ)) = 1 := by norm_num [pyTrunc]
  have h4 : pyTrunc (Int.fract ((1 : ℚ)) * 60) = 0 := by
    norm_num [pyTrunc, Int.fract]
  have h5 : pyTrunc (0 : ℚ) = 0 := by norm_num [pyTrunc]
  simp only [create_time_blocks, timeBlocksFrom, cSessA, cSessB] at *
  norm_num [h1, h2, h3, h4, h5, cBlock1, cBlock2]

/-- Claim C1: for every assignment with a well-formed due date and
nonnegative priority, `calculate_urgency_score` returns a value in
`[0, 100]` determined by the whole-day difference between the due date
and `now`: 100 when that difference is negative, 90 when it is 0, 80
when it is 1, and otherwise
`min 100 (max 0 (15 - days_until_due) + priority * 10)`. -/
theorem C1_urgency_formula (due now : ℚ) (p : Int) (hp : 0 ≤ p) :
    (0 ≤ calculate_urgency_score (some due) now p ∧
      calculate_urgency_score (some due) now p ≤ 100) ∧
    (days_until_due due now < 0 → calculate_urgency_score (some due) now p = 100) ∧
    (days_until_due due now = 0 → calculate_urgency_score (some due) now p = 90) ∧
    (days_until_due due now = 1 → calculate_urgency_score (some due) now p = 80) ∧
    (2 ≤ days_until_due due now →
      calculate_urgency_score (some due) now p =
        min 100 (max 0 (15 - (days_until_due due now : ℚ)) + (p : ℚ) * 10)) := by
  have hp10 : (0 : ℚ) ≤ (p : ℚ) * 10 := by
    have : (0 : ℚ) ≤ (p : ℚ) := by exact_mod_cast hp
    linarith
  simp only [calculate_urgency_score, urgency_core]
  refine ⟨?_, fun h => ?_, fun h => ?_, fun h => ?_, fun h => ?_⟩
  · split_ifs with h1 h2 h3
    · norm_num
    · norm_num
    · norm_num
    · refine ⟨le_min (by norm_num) ?_, min_le_left _ _⟩
      have := le_max_left (0 : ℚ) (15 - (days_until_due due now : ℚ))
      linarith
  · rw [if_pos h]
  · rw [if_neg (by omega), if_pos h]
  · rw [if_neg (by omega), if_neg (by omega), if_pos (by omega)]
  · rw [if_neg (by omega), if_neg (by omega), if_neg (by omega)]

/-- Witness for C1 at `due = 5`, `now = 0`, `priority = 3`. -/
theorem C1_urgency_formula_witness :
    (0 : Int) ≤ 3 ∧ calculate_urgency_score (some 5) 0 3 ≤ 100 :=
  ⟨by decide, (C1_urgency_formula 5 0 3 (by decide)).1.2⟩

/-- Claim C8: `calculate_urgency_score` is total; when the due-date
arithmetic cannot be evaluated (modelled by the `none` due date) it
returns `priority * 10`, and otherwise it returns the nominal score. -/
theorem C8_urgency_fallback (now : ℚ) (p : Int) :
    calculate_urgency_score none now p = (p : ℚ) * 10 ∧
    ∀ due : ℚ, calculate_urgency_score (some due) now p =
      urgency_core (days_until_due due now) p :=
  ⟨rfl, fun _ => rfl⟩

/-- Claim C2: across all days of one scheduling run, the unrounded
hours allocated to the pending assignment at position `i` sum to at
most its `estimated_hours`. -/
theorem C2_per_assignment_cap (h : DataHandler) (now avail : ℚ) (days_ahead : Nat)
    (havail : 0 < avail) (hdays : 1 ≤ days_ahead) (i : Nat) (a : Assignment)
    (ha : (get_pending_assignments h).get? i = some a) (hest : 0 ≤ a.estimated_hours) :
    schedRawSumIdx i (simple_schedule h now avail days_ahead).1.schedule ≤
      a.estimated_hours := by
  have hne : (get_pending_assignments h).isEmpty = false := by
    cases hl : get_pending_assignments h with
    | nil => rw [hl] at ha; simp at ha
    | cons b t => rfl
  simp only [simple_schedule, hne, Bool.false_eq_true, if_false, runSchedule]
  have hperm := sortByUrgency_perm (mkWorking now 0 (get_pending_assignments h))
  have hsum : remSumIdx i (sortByUrgency (mkWorking now 0 (get_pending_assignments h))) =
      a.estimated_hours := by
    rw [remSumIdx_perm hperm]
    simpa using mkWorking_remSum now (get_pending_assignments h) 0 i a ha
  have hacc := runDays_remSum avail ⌊now⌋ i 0 days_ahead
    (sortByUrgency (mkWorking now 0 (get_pending_assignments h)))
  have hfinal : 0 ≤ remSumIdx i
      (runDays avail ⌊now⌋ 0 days_ahead
        (sortByUrgency (mkWorking now 0 (get_pending_assignments h)))).2 := by
    refine forall2_recStep_remSum_nonneg
      (runDays_forall2 avail ⌊now⌋ 0 days_ahead _) (fun r hr hri => ?_)
    obtain ⟨j, hj, hget, hrem⟩ :=
      mkWorking_mem now 0 (get_pending_assignments h) r (hperm.mem_iff.mp hr)
    have hji : j = i := by omega
    rw [hji] at hget
    rw [hget] at ha
    injection ha with haa
    rw [hrem, haa]
    exact hest
  linarith

/-- Witness for C2 on the one-assignment example run. -/
theorem C2_per_assignment_cap_witness :
    schedRawSumIdx 0 (simple_schedule exHandler (1 / 4) 8 1).1.schedule ≤
      exAssignment.estimated_hours :=
  C2_per_assignment_cap exHandler (1 / 4) 8 1 (by norm_num) (by norm_num) 0 exAssignment
    (by simp [exPending_eq]) (by norm_num [exAssignment])

/-- Claim C3: for every day of a returned schedule, the unrounded
session hours sum to at most the daily budget, and the emitted rounded
hours exceed it by at most 1/20 per session (the one-decimal
rounding). -/
theorem C3_daily_budget (h : DataHandler) (now avail : ℚ) (days_ahead : Nat)
    (havail : 0 ≤ avail) (d : DaySchedule)
    (hd : d ∈ (simple_schedule h now avail days_ahead).1.schedule) :
    (d.sessions.map Session.hoursRaw).sum ≤ avail ∧
    (d.sessions.map Session.hours).sum ≤ avail + (d.sessions.length : ℚ) * (1 / 20) := by
  by_cases hne : (get_pending_assignments h).isEmpty = true
  · simp [simple_schedule, hne] at hd
  · simp only [simple_schedule, hne, if_false, runSchedule] at hd
    obtain ⟨ws1, -, hsess⟩ := runDays_mem avail ⌊now⌋ 0 days_ahead _ d hd
    have hraw : (d.sessions.map Session.hoursRaw).sum ≤ avail := by
      rw [hsess]
      exact processDay_raw_le _ avail ws1 havail
    have hround : ∀ s ∈ d.sessions, s.hours = round1 s.hoursRaw := by
      intro s hs
      rw [hsess] at hs
      exact (processDay_session_props d.date avail ws1 s hs).2.2.2
    have hsum := sum_hours_le_raw d.sessions hround
    exact ⟨hraw, by linarith⟩

/-- Witness for C3 on the one-assignment example run. -/
theorem C3_daily_budget_witness :
    (exDay.sessions.map Session.hoursRaw).sum ≤ 8 ∧
    (exDay.sessions.map Session.hours).sum ≤ 8 + (exDay.sessions.length : ℚ) * (1 / 20) :=
  C3_daily_budget exHandler (1 / 4) 8 1 (by norm_num) exDay exDay_mem

/-- Claim C4: no session is ever scheduled on a day strictly after its
assignment's due day, and an assignment due today is still eligible
today: in the example run the assignment due on day 0 receives a
session on day 0. -/
theorem C4_due_day_boundary :
    (∀ (h : DataHandler) (now avail : ℚ) (days_ahead : Nat) (d : DaySchedule) (s : Session),
      d ∈ (simple_schedule h now avail days_ahead).1.schedule → s ∈ d.sessions →
      d.date ≤ s.due_date) ∧
    ((simple_schedule exHandler (1 / 4) 8 1).1.schedule = [exDay] ∧
      exDay.date = exSession.due_date) := by
  constructor
  · intro h now avail days_ahead d s hd hs
    by_cases hne : (get_pending_assignments h).isEmpty = true
    · simp [simple_schedule, hne] at hd
    · simp only [simple_schedule, hne, if_false, runSchedule] at hd
      obtain ⟨ws1, -, hsess⟩ := runDays_mem avail ⌊now⌋ 0 days_ahead _ d hd
      rw [hsess] at hs
      exact (processDay_session_props d.date avail ws1 s hs).1
  · exact ⟨exSchedule_eq, rfl⟩

/-- Witness for C4 on the one-assignment example run. -/
theorem C4_due_day_boundary_witness : exDay.date ≤ exSession.due_date :=
  C4_due_day_boundary.1 exHandler (1 / 4) 8 1 exDay exSession exDay_mem (by simp [exDay])

/-- Claim C5: the sorted working list is a permutation of the working
copies, it is ordered by urgency descending with ties in input order
(`urgOrd`), and the sessions of every returned day list their records
in that sorted order (their `idx` sequence is a sublist of the sorted
one). -/
theorem C5_stable_sort_order (h : DataHandler) (now avail : ℚ) (days_ahead : Nat) :
    (sortByUrgency (mkWorking now 0 (get_pending_assignments h))).Perm
      (mkWorking now 0 (get_pending_assignments h)) ∧
    (sortByUrgency (mkWorking now 0 (get_pending_assignments h))).Pairwise urgOrd ∧
    ∀ d ∈ (simple_schedule h now avail days_ahead).1.schedule,
      (d.sessions.map Session.idx).Sublist
        ((sortByUrgency (mkWorking now 0 (get_pending_assignments h))).map WorkRec.idx) := by
  refine ⟨sortByUrgency_perm _,
    sortByUrgency_pairwise (mkWorking_pairwise_idx now 0 _), ?_⟩
  intro d hd
  by_cases hne : (get_pending_assignments h).isEmpty = true
  · simp [simple_schedule, hne] at hd
  · simp only [simple_schedule, hne, if_false, runSchedule] at hd
    obtain ⟨ws1, hf, hsess⟩ := runDays_mem avail ⌊now⌋ 0 days_ahead _ d hd
    rw [hsess, ← forall2_recStep_map_idx hf]
    exact processDay_idx_sublist d.date avail ws1

/-- Witness for C5 on the one-assignment example run. -/
theorem C5_stable_sort_order_witness :
    (exDay.sessions.map Session.idx).Sublist
      ((sortByUrgency (mkWorking (1 / 4) 0 (get_pending_assignments exHandler))).map
        WorkRec.idx) :=
  (C5_stable_sort_order exHandler (1 / 4) 8 1).2.2 exDay exDay_mem

/-- Claim C7: `simple_schedule` leaves the data handler (courses,
assignments, all their fields) unchanged; in the working list, only
`remaining_hours` is ever mutated: identity, assignment reference and
urgency of every record survive the run untouched. -/
theorem C7_no_persistent_mutation (h : DataHandler) (now avail : ℚ) (days_ahead : Nat) :
    (simple_schedule h now avail days_ahead).2 = h ∧
    List.Forall₂ (fun r rr => rr.idx = r.idx ∧ rr.assignment = r.assignment ∧
        rr.urgency = r.urgency)
      (sortByUrgency (mkWorking now 0 (get_pending_assignments h)))
      (runSchedule now avail days_ahead (get_pending_assignments h)).2 := by
  constructor
  · simp only [simple_schedule]
    split_ifs <;> rfl
  · simp only [runSchedule]
    exact (runDays_forall2 avail ⌊now⌋ 0 days_ahead _).imp
      (fun _ _ hr => ⟨hr.1, hr.2.1, hr.2.2.1⟩)

/-- Claim C9: within any returned day, every record appears in at most
one session (the `idx` values are distinct), and every session's
unrounded allocation lies in `(1/2, 4]`. -/
theorem C9_session_bounds (h : DataHandler) (now avail : ℚ) (days_ahead : Nat)
    (d : DaySchedule) (hd : d ∈ (simple_schedule h now avail days_ahead).1.schedule) :
    (d.sessions.map Session.idx).Nodup ∧
    ∀ s ∈ d.sessions, 1 / 2 < s.hoursRaw ∧ s.hoursRaw ≤ 4 := by
  by_cases hne : (get_pending_assignments h).isEmpty = true
  · simp [simple_schedule, hne] at hd
  · simp only [simple_schedule, hne, if_false, runSchedule] at hd
    obtain ⟨ws1, hf, hsess⟩ := runDays_mem avail ⌊now⌋ 0 days_ahead _ d hd
    constructor
    · have hsub : (d.sessions.map Session.idx).Sublist (ws1.map WorkRec.idx) := by
        rw [hsess]
        exact processDay_idx_sublist d.date avail ws1
      refine hsub.nodup ?_
      rw [forall2_recStep_map_idx hf,
        ((sortByUrgency_perm (mkWorking now 0 (get_pending_assignments h))).map
          WorkRec.idx).nodup_iff,
        mkWorking_map_idx]
      exact List.nodup_range' _ _
    · intro s hs
      rw [hsess] at hs
      have hp := processDay_session_props d.date avail ws1 s hs
      exact ⟨hp.2.1, hp.2.2.1⟩

/-- Witness for C9 on the one-assignment example run. -/
theorem C9_session_bounds_witness :
    (exDay.sessions.map Session.idx).Nodup ∧
    ∀ s ∈ exDay.sessions, 1 / 2 < s.hoursRaw ∧ s.hoursRaw ≤ 4 :=
  C9_session_bounds exHandler (1 / 4) 8 1 exDay exDay_mem

theorem add_course_nodup {h : DataHandler} (c : Course)
    (hn : (h.courses.map Course.name).Nodup) :
    (((add_course h c).2.courses).map Course.name).Nodup := by
  unfold add_course
  split_ifs with hm
  · simpa using hn
  · simp only [List.map_append, List.map_cons, List.map_nil]
    rw [List.nodup_append]
    exact ⟨hn, List.nodup_singleton _,
      fun x hx hx2 => hm (by rwa [show x = c.name by simpa using hx2] at hx)⟩

theorem foldl_add_course_nodup : ∀ (cs : List Course) (h : DataHandler),
    (h.courses.map Course.name).Nodup →
    (((cs.foldl (fun acc c => (add_course acc c).2) h).courses).map Course.name).Nodup
  | [], _, hn => hn
  | c :: cs, h, hn => foldl_add_course_nodup cs _ (add_course_nodup c hn)

/-- Claim C10: `add_course` appends and returns true exactly when no
stored course has the same name, returns false leaving the handler
unchanged otherwise, and therefore any sequence of `add_course` calls
from an empty handler keeps course names pairwise distinct. -/
theorem C10_course_names_unique :
    (∀ (h : DataHandler) (c : Course),
      ((add_course h c).1 = true ↔ c.name ∉ h.courses.map Course.name) ∧
      ((add_course h c).1 = true →
        (add_course h c).2.courses = h.courses ++ [c] ∧
        (add_course h c).2.assignments = h.assignments) ∧
      ((add_course h c).1 = false → (add_course h c).2 = h)) ∧
    ∀ cs : List Course,
      (((cs.foldl (fun acc c => (add_course acc c).2)
        { courses := [], assignments := [] }).courses).map Course.name).Nodup := by
  constructor
  · intro h c
    unfold add_course
    split_ifs with hm
    · exact ⟨by simp [hm], by simp, fun _ => rfl⟩
    · exact ⟨by simp [hm], fun _ => ⟨rfl, rfl⟩, by simp⟩
  · intro cs
    exact foldl_add_course_nodup cs _ (by simp)

/-- Witness for C10: adding one course to the empty handler. -/
theorem C10_course_names_unique_witness :
    (add_course { courses := [], assignments := [] } exCourse).2.courses =
      [] ++ [exCourse] ∧
    (add_course { courses := [], assignments := [] } exCourse).2.assignments = [] :=
  (C10_course_names_unique.1 { courses := [], assignments := [] } exCourse).2.1
    (by simp [add_course])

/-- Counterexample to C6 as stated: for sessions of 1.5h and 1h the
first block ends at 10:30, the minute component 30 does not exceed 45,
yet the second block starts at 10:00, not at the previous end time. -/
theorem C6_counterexample :
    cBlocks = [cBlock1, cBlock2] ∧ ¬ 45 < cBlock1.end_minute ∧
    ¬ (cBlock2.start_hour = cBlock1.end_hour ∧
        cBlock2.start_minute = cBlock1.end_minute) :=
  ⟨cBlocks_eval, by norm_num [cBlock1], by norm_num [cBlock1, cBlock2]⟩

/-- Claim C6 as amended: blocks map sessions in input order; the first
block starts at 09:00; every block's end time is its start plus the
duration split into whole hours and fractional minutes; every
subsequent block starts on the hour, at the previous block's end hour
plus one exactly when the previous end minute exceeds 45 (the end
minute itself is discarded); the empty session list yields no blocks. -/
theorem C6_time_blocks_amended (sessions : List Session) :
    create_time_blocks ([] : List Session) = [] ∧
    (∀ b, (create_time_blocks sessions).head? = some b →
      b.start_hour = 9 ∧ b.start_minute = 0) ∧
    List.Chain' (fun b1 b2 => b2.start_minute = 0 ∧
      b2.start_hour = b1.end_hour + (if 45 < b1.end_minute then 1 else 0))
      (create_time_blocks sessions) ∧
    List.Forall₂ (fun b s => b.duration_hours = s.hours ∧
      b.end_hour = b.start_hour + pyTrunc s.hours ∧
      b.end_minute = pyTrunc (Int.fract s.hours * 60))
      (create_time_blocks sessions) sessions :=
  ⟨rfl, fun b hb => timeBlocksFrom_head 9 sessions b hb,
    timeBlocksFrom_chain 9 sessions, timeBlocksFrom_forall2 9 sessions⟩

/-- Witness for the amended C6 on the two example sessions. -/
theorem C6_time_blocks_amended_witness :
    cBlock1.start_hour = 9 ∧ cBlock1.start_minute = 0 :=
  (C6_time_blocks_amended [cSessA, cSessB]).2.1 cBlock1 (by simp [cBlocks_eval])

end StudyScheduler
